import Mathlib

/-!
Verification of the disk-scheduling engine in `src/disk.py`
(`DiskScheduler` and the input-validation contract of
`DiskSchedulerGUI._validate_inputs`).

Cylinder addresses are Python `int`s, modelled as `Int`.  The derived
metrics `avg_seek` and `throughput` are Python floats produced by exact
integer division of small quantities; they are modelled as rationals.
-/

namespace DiskSim

/-- Python's `sorted(requests)`: ascending stable sort of an integer list
(`disk.py` lines 48 and 62). -/
def pySorted (l : List Int) : List Int :=
  l.mergeSort (fun a b => decide (a ≤ b))

/-- The sum `sum(abs(seq[i] - seq[i-1]) for i in range(1, len(seq)))`
from `DiskScheduler.calculate_metrics` (`disk.py` lines 24-25). -/
def totalSeekOf : List Int → Int
  | a :: b :: rest => |b - a| + totalSeekOf (b :: rest)
  | _ => 0

/-- The metrics triple returned by `DiskScheduler.calculate_metrics`. -/
structure Metrics where
  total_seek : Int
  avg_seek : Rat
  throughput : Rat
deriving DecidableEq

/-- Embeds `DiskScheduler.calculate_metrics` (`disk.py` lines 22-28):
`total = sum of consecutive absolute differences of the seek sequence`;
`avg = total / len(requests) if requests else 0`;
`throughput = len(requests) / (total + 1) if total > 0 else 0`. -/
def calculate_metrics (requests : List Int) (seq : List Int) : Metrics :=
  let total := totalSeekOf seq
  { total_seek := total
    avg_seek := if requests = [] then 0 else (total : Rat) / (requests.length : Rat)
    throughput := if 0 < total then (requests.length : Rat) / ((total : Rat) + 1) else 0 }

/-- The `DiskScheduler.fcfs` seek sequence (`disk.py` line 32):
`[self.head] + self.requests`. -/
def fcfsSeq (head : Int) (requests : List Int) : List Int :=
  head :: requests

/-- Python `min(best :: xs, key=f)`: scan left to right, replacing the
current best only on a strictly smaller key, so the first element with
the minimal key wins (`disk.py` line 40). -/
def pyMinBy (f : Int → Int) : Int → List Int → Int
  | best, [] => best
  | best, x :: xs => if f x < f best then pyMinBy f x xs else pyMinBy f best xs

theorem pyMinBy_mem (f : Int → Int) : ∀ (xs : List Int) (best : Int), pyMinBy f best xs ∈ best :: xs := by
  intro xs
  induction xs with
  | nil => intro best; simp [pyMinBy]
  | cons x xs ih =>
    intro best
    simp only [pyMinBy]
    split
    · exact List.mem_cons_of_mem _ (ih x)
    · have h := ih best
      rcases List.mem_cons.mp h with h | h
      · rw [h]; exact List.mem_cons_self _ _
      · exact List.mem_cons_of_mem _ (List.mem_cons_of_mem _ h)

/-- The loop of `DiskScheduler.sstf` (`disk.py` lines 39-42): while
requests remain, append the one closest to the last visited position
(`min(remaining, key=lambda x: abs(x - seek_sequence[-1]))`) and remove
it from the remaining list (`remaining.remove(closest)` drops the first
occurrence of that value). -/
def sstfAux (cur : Int) (remaining : List Int) : List Int :=
  match remaining with
  | [] => []
  | x :: xs =>
    let closest := pyMinBy (fun y => |y - cur|) x xs
    closest :: sstfAux closest ((x :: xs).erase closest)
termination_by remaining.length
decreasing_by
  have hmem : pyMinBy (fun y => |y - cur|) x xs ∈ x :: xs := pyMinBy_mem _ xs x
  rw [List.length_erase_of_mem hmem]
  simp

/-- The `DiskScheduler.sstf` seek sequence (`disk.py` lines 35-43). -/
def sstfSeq (head : Int) (requests : List Int) : List Int :=
  head :: sstfAux head requests

/-- The `DiskScheduler.scan` seek sequence (`disk.py` lines 45-57).
For `direction == "right"`: `left`/`right` partition the sorted requests
at the head (strictly below / at-or-above), and the sequence is
`[head] + right + ([disk_size - 1] if right and right[-1] != disk_size - 1 else []) + left[::-1]`.
Any other direction takes the `else` branch, partitioning at-or-below /
strictly above, with `[0] if left and left[0] != 0 else []`. -/
def scanSeq (head disk_size : Int) (requests : List Int) (direction : String) : List Int :=
  let sorted_requests := pySorted requests
  if direction = "right" then
    let left := sorted_requests.filter (fun x => decide (x < head))
    let right := sorted_requests.filter (fun x => decide (head ≤ x))
    [head] ++ right ++
      (if right ≠ [] ∧ right.getLast? ≠ some (disk_size - 1) then [disk_size - 1] else []) ++
      left.reverse
  else
    let left := sorted_requests.filter (fun x => decide (x ≤ head))
    let right := sorted_requests.filter (fun x => decide (head < x))
    [head] ++ left.reverse ++
      (if left ≠ [] ∧ left.head? ≠ some 0 then [0] else []) ++
      right

/-- The `DiskScheduler.cscan` seek sequence (`disk.py` lines 59-66):
`[head] + right + ([disk_size - 1] if right and right[-1] != disk_size - 1 else []) + [0] + left`
with `right`/`left` the at-or-above / strictly-below partition of the
sorted requests. -/
def cscanSeq (head disk_size : Int) (requests : List Int) : List Int :=
  let sorted_requests := pySorted requests
  let right := sorted_requests.filter (fun x => decide (head ≤ x))
  let left := sorted_requests.filter (fun x => decide (x < head))
  [head] ++ right ++
    (if right ≠ [] ∧ right.getLast? ≠ some (disk_size - 1) then [disk_size - 1] else []) ++
    [0] ++ left

/-- The four scheduling policies dispatched by
`DiskSchedulerGUI._run_algorithm` (`disk.py` lines 314-332); SCAN
carries the GUI's direction string. -/
inductive Policy where
  | fcfs
  | sstf
  | scan (direction : String)
  | cscan

/-- The seek sequence each policy stores in `self.seek_sequence`. -/
def policySeq (p : Policy) (head disk_size : Int) (requests : List Int) : List Int :=
  match p with
  | .fcfs => fcfsSeq head requests
  | .sstf => sstfSeq head requests
  | .scan d => scanSeq head disk_size requests d
  | .cscan => cscanSeq head disk_size requests

/-- One policy run on a fresh `DiskScheduler`: the stored seek sequence
together with the metrics `calculate_metrics` computes from it. -/
def runPolicy (p : Policy) (head disk_size : Int) (requests : List Int) : List Int × Metrics :=
  let seq := policySeq p head disk_size requests
  (seq, calculate_metrics requests seq)

/-- The semantic checks of `DiskSchedulerGUI._validate_inputs`
(`disk.py` lines 305-312), after integer parsing: empty queue,
non-positive disk size, then head or any request out of range. -/
def validateInputs (disk_size head : Int) (requests : List Int) : Except String (Int × Int × List Int) :=
  if requests = [] then Except.error "Request queue cannot be empty."
  else if disk_size ≤ 0 then Except.error "Disk size must be positive."
  else if ¬(0 ≤ head ∧ head < disk_size) ∨
      requests.any (fun r => decide (r < 0) || decide (disk_size ≤ r)) = true then
    Except.error "Head and requests must be within disk size (0 to disk_size-1)."
  else Except.ok (disk_size, head, requests)

/-- Embeds `run_simulation` (`disk.py` lines 395-399): validate first, and only
on success run the selected policy; a validation error yields no
sequence and no metrics. -/
def runEngine (p : Policy) (disk_size head : Int) (requests : List Int) : Except String (List Int × Metrics) :=
  match validateInputs disk_size head requests with
  | .error e => Except.error e
  | .ok _ => Except.ok (runPolicy p head disk_size requests)

/-! ### Sortedness facts about `pySorted` and its filters -/

theorem pySorted_perm (l : List Int) : (pySorted l).Perm l :=
  List.mergeSort_perm l _

theorem pySorted_pairwise (l : List Int) : (pySorted l).Pairwise (fun a b : Int => a ≤ b) := by
  have h : (l.mergeSort (fun a b => decide (a ≤ b))).Pairwise
      (fun a b : Int => decide (a ≤ b) = true) := by
    apply List.sorted_mergeSort
    · intro a b c hab hbc
      simp only [decide_eq_true_eq] at *
      exact le_trans hab hbc
    · intro a b
      rcases le_total a b with h | h <;> simp [h]
  exact h.imp (fun hab => of_decide_eq_true hab)

/-- In a weakly ascending integer list, the last element is exactly the
maximum. -/
theorem sorted_maximum_iff : ∀ (l : List Int), l.Pairwise (fun a b : Int => a ≤ b) →
    ∀ d : Int, (l.maximum = (d : WithBot Int) ↔ l.getLast? = some d)
  | [], _, d => by simp [List.maximum_nil]
  | [a], _, d => by simp [List.maximum_singleton]
  | a :: b :: t, h, d => by
    have h2 : (b :: t).Pairwise (fun a b : Int => a ≤ b) := h.of_cons
    have hmem : ∀ y ∈ b :: t, a ≤ y := (List.pairwise_cons.mp h).1
    have hne : (b :: t).maximum ≠ ⊥ := by
      simp [List.maximum_eq_bot]
    obtain ⟨m, hm'⟩ := WithBot.ne_bot_iff_exists.mp hne
    have hm : (b :: t).maximum = (m : WithBot Int) := hm'.symm
    have ham : a ≤ m := hmem m (List.maximum_mem hm)
    rw [List.getLast?_cons_cons, List.maximum_cons, hm,
      max_eq_right (WithBot.coe_le_coe.mpr ham), ← hm]
    exact sorted_maximum_iff (b :: t) h2 d

/-- In a weakly ascending integer list, the first element is exactly the
minimum. -/
theorem sorted_minimum_iff (l : List Int) (h : l.Pairwise (fun a b : Int => a ≤ b))
    (d : Int) : l.minimum = (d : WithTop Int) ↔ l.head? = some d := by
  cases l with
  | nil => simp [List.minimum_nil]
  | cons a t =>
    have hmem : ∀ y ∈ t, a ≤ y := (List.pairwise_cons.mp h).1
    have hle : (a : WithTop Int) ≤ t.minimum :=
      List.le_minimum_of_forall_le (fun y hy => WithTop.coe_le_coe.mpr (hmem y hy))
    rw [List.minimum_cons, min_eq_left hle]
    simp

theorem boundary_if_congr_max (l : List Int) (hl : l.Pairwise (fun a b : Int => a ≤ b))
    (d : Int) (out : List Int) :
    (if l ≠ [] ∧ l.getLast? ≠ some d then out else []) =
    (if l ≠ [] ∧ l.maximum ≠ (d : WithBot Int) then out else []) :=
  if_congr (and_congr_right fun _ =>
    not_congr (sorted_maximum_iff l hl d).symm) rfl rfl

theorem boundary_if_congr_min (l : List Int) (hl : l.Pairwise (fun a b : Int => a ≤ b))
    (out : List Int) :
    (if l ≠ [] ∧ l.head? ≠ some 0 then out else []) =
    (if l ≠ [] ∧ l.minimum ≠ ((0 : Int) : WithTop Int) then out else []) :=
  if_congr (and_congr_right fun _ =>
    not_congr (sorted_minimum_iff l hl 0).symm) rfl rfl

/-! ### Spec-side sequence descriptions for SCAN and C-SCAN -/

/-- The spec's description of SCAN with direction right: sort the
requests ascending, partition at the head into strictly-below and
at-or-above, and emit
`[head] + right-ascending + [disk_size-1 if right is non-empty and its
max ≠ disk_size-1] + left-descending`.  Stated with `List.maximum`,
where the code inspects `right[-1]`. -/
def specScanRightSeq (head disk_size : Int) (requests : List Int) : List Int :=
  let sorted_requests := pySorted requests
  let left := sorted_requests.filter (fun x => decide (x < head))
  let right := sorted_requests.filter (fun x => decide (head ≤ x))
  [head] ++ right ++
    (if right ≠ [] ∧ right.maximum ≠ ((disk_size - 1 : Int) : WithBot Int)
      then [disk_size - 1] else []) ++
    left.reverse

/-- The spec's description of SCAN with direction left: partition into
at-or-below and strictly-above, and emit
`[head] + left-descending + [0 if left is non-empty and its min ≠ 0] +
right-ascending`.  Stated with `List.minimum`, where the code inspects
`left[0]`. -/
def specScanLeftSeq (head : Int) (requests : List Int) : List Int :=
  let sorted_requests := pySorted requests
  let left := sorted_requests.filter (fun x => decide (x ≤ head))
  let right := sorted_requests.filter (fun x => decide (head < x))
  [head] ++ left.reverse ++
    (if left ≠ [] ∧ left.minimum ≠ ((0 : Int) : WithTop Int) then [0] else []) ++
    right

/-- The spec's description of C-SCAN:
`[head] + right-ascending + [disk_size-1 if right is non-empty and its
max ≠ disk_size-1] + [0] + left-ascending`, the `[0]` unconditional and
the left part not reversed. -/
def specCscanSeq (head disk_size : Int) (requests : List Int) : List Int :=
  let sorted_requests := pySorted requests
  let right := sorted_requests.filter (fun x => decide (head ≤ x))
  let left := sorted_requests.filter (fun x => decide (x < head))
  [head] ++ right ++
    (if right ≠ [] ∧ right.maximum ≠ ((disk_size - 1 : Int) : WithBot Int)
      then [disk_size - 1] else []) ++
    [0] ++ left

/-- C2: SCAN right returns `[head]`, the at-or-above requests ascending,
the boundary visit to `disk_size-1` exactly when that part is non-empty
with maximum below it, then the strictly-below requests descending; SCAN
left is the mirror with the boundary visit to `0`. -/
theorem scan_seq_matches_spec (head disk_size : Int) (requests : List Int) :
    (runPolicy (Policy.scan "right") head disk_size requests).1 =
      specScanRightSeq head disk_size requests ∧
    (runPolicy (Policy.scan "left") head disk_size requests).1 =
      specScanLeftSeq head requests := by
  constructor
  · show scanSeq head disk_size requests "right" = specScanRightSeq head disk_size requests
    have hsor : ((pySorted requests).filter (fun x => decide (head ≤ x))).Pairwise
        (fun a b : Int => a ≤ b) :=
      List.Pairwise.sublist (List.filter_sublist _) (pySorted_pairwise requests)
    simp only [scanSeq, specScanRightSeq, reduceIte]
    rw [boundary_if_congr_max _ hsor]
  · show scanSeq head disk_size requests "left" = specScanLeftSeq head requests
    have hsor : ((pySorted requests).filter (fun x => decide (x ≤ head))).Pairwise
        (fun a b : Int => a ≤ b) :=
      List.Pairwise.sublist (List.filter_sublist _) (pySorted_pairwise requests)
    simp only [scanSeq, specScanLeftSeq]
    rw [if_neg (by decide : ¬("left" : String) = "right")]
    rw [boundary_if_congr_min _ hsor]

/-- C3: C-SCAN returns `[head]`, the at-or-above requests ascending, the
boundary visit to `disk_size-1` exactly when that part is non-empty with
maximum below it, then an unconditional visit to `0`, then the
strictly-below requests ascending (not reversed). -/
theorem cscan_seq_matches_spec (head disk_size : Int) (requests : List Int) :
    (runPolicy Policy.cscan head disk_size requests).1 =
      specCscanSeq head disk_size requests := by
  show cscanSeq head disk_size requests = specCscanSeq head disk_size requests
  have hsor : ((pySorted requests).filter (fun x => decide (head ≤ x))).Pairwise
      (fun a b : Int => a ≤ b) :=
    List.Pairwise.sublist (List.filter_sublist _) (pySorted_pairwise requests)
  simp only [cscanSeq, specCscanSeq]
  rw [boundary_if_congr_max _ hsor]

/-- C5: the FCFS seek sequence is `[head]` followed by the request list
verbatim — caller order kept, no sorting, no deduplication. -/
theorem fcfs_seq_verbatim (head disk_size : Int) (requests : List Int) :
    (runPolicy Policy.fcfs head disk_size requests).1 = head :: requests := rfl

/-! ### Metrics: totals, averages, throughput -/

theorem totalSeekOf_nonneg : ∀ seq : List Int, 0 ≤ totalSeekOf seq
  | [] => le_refl 0
  | [_] => le_refl 0
  | a :: b :: rest => by
    show 0 ≤ |b - a| + totalSeekOf (b :: rest)
    exact add_nonneg (abs_nonneg _) (totalSeekOf_nonneg (b :: rest))

/-- C1 counterexample: for the valid input `disk_size = 100`,
`head = 50`, `requests = [50]`, FCFS yields total seek 0 and the code
reports throughput 0, not `len(requests) / (total + 1) = 1` as the
claim states. -/
theorem throughput_zero_total_counterexample :
    (runPolicy Policy.fcfs 50 100 [50]).2.total_seek = 0 ∧
    (runPolicy Policy.fcfs 50 100 [50]).2.throughput ≠
      ((([50] : List Int).length : Rat) /
        (((runPolicy Policy.fcfs 50 100 [50]).2.total_seek : Rat) + 1)) := by
  have h0 : (runPolicy Policy.fcfs 50 100 [50]).2.total_seek = 0 := rfl
  have ht : (runPolicy Policy.fcfs 50 100 [50]).2.throughput = 0 := rfl
  refine ⟨h0, ?_⟩
  rw [ht, h0]
  norm_num

/-- C1 (amended): for every input and policy the reported throughput is
`len(requests) / (total + 1)` when the total seek distance is positive
and `0` when it is zero (never `len(requests)`), and it is always
non-negative. -/
theorem throughput_formula_of_code (p : Policy) (head disk_size : Int)
    (requests : List Int) :
    (runPolicy p head disk_size requests).2.throughput =
      (if 0 < (runPolicy p head disk_size requests).2.total_seek
        then (requests.length : Rat) /
          (((runPolicy p head disk_size requests).2.total_seek : Rat) + 1)
        else 0) ∧
    0 ≤ (runPolicy p head disk_size requests).2.throughput := by
  constructor
  · rfl
  · show 0 ≤ (calculate_metrics requests (policySeq p head disk_size requests)).throughput
    unfold calculate_metrics
    dsimp only
    split
    · apply div_nonneg (Nat.cast_nonneg _)
      have h := totalSeekOf_nonneg (policySeq p head disk_size requests)
      have h2 : (0 : Rat) ≤ (totalSeekOf (policySeq p head disk_size requests) : Rat) := by
        exact_mod_cast h
      linarith
    · exact le_refl 0

/-- C7: for every policy the reported total seek equals the
consecutive-absolute-difference sum recomputed from the returned
sequence, and the reported average is that total divided by the number
of original requests (not by the sequence length). -/
theorem metrics_internal_consistency (p : Policy) (head disk_size : Int)
    (requests : List Int) (hne : requests ≠ []) :
    (runPolicy p head disk_size requests).2.total_seek =
      totalSeekOf ((runPolicy p head disk_size requests).1) ∧
    (runPolicy p head disk_size requests).2.avg_seek =
      ((runPolicy p head disk_size requests).2.total_seek : Rat) /
        (requests.length : Rat) := by
  constructor
  · rfl
  · show (calculate_metrics requests (policySeq p head disk_size requests)).avg_seek = _
    unfold calculate_metrics
    dsimp only
    rw [if_neg hne]
    rfl

theorem metrics_internal_consistency_witness :
    (runPolicy Policy.fcfs 50 200 [98, 183, 37, 122, 14, 124, 65, 67]).2.total_seek =
      totalSeekOf ((runPolicy Policy.fcfs 50 200 [98, 183, 37, 122, 14, 124, 65, 67]).1) ∧
    (runPolicy Policy.fcfs 50 200 [98, 183, 37, 122, 14, 124, 65, 67]).2.avg_seek =
      ((runPolicy Policy.fcfs 50 200 [98, 183, 37, 122, 14, 124, 65, 67]).2.total_seek : Rat) /
        ((([98, 183, 37, 122, 14, 124, 65, 67] : List Int)).length : Rat) :=
  metrics_internal_consistency Policy.fcfs 50 200 [98, 183, 37, 122, 14, 124, 65, 67]
    (by decide)

/-! ### Validation -/

theorem validateInputs_error_iff (disk_size head : Int) (requests : List Int) :
    (∃ e, validateInputs disk_size head requests = Except.error e) ↔
      (requests = [] ∨ disk_size ≤ 0 ∨ ¬(0 ≤ head ∧ head < disk_size) ∨
        ∃ r ∈ requests, r < 0 ∨ disk_size ≤ r) := by
  unfold validateInputs
  split_ifs with h1 h2 h3
  · simp [h1]
  · simp [h2]
  · constructor
    · intro _
      rcases h3 with h3 | h3
      · exact Or.inr (Or.inr (Or.inl h3))
      · refine Or.inr (Or.inr (Or.inr ?_))
        rw [List.any_eq_true] at h3
        obtain ⟨r, hr, hpr⟩ := h3
        refine ⟨r, hr, ?_⟩
        simpa using hpr
    · intro _
      exact ⟨_, rfl⟩
  · constructor
    · rintro ⟨e, he⟩
      exact he.elim
    · intro hrhs
      exfalso
      push_neg at h3
      rcases hrhs with h | h | h | h
      · exact h1 h
      · exact h2 h
      · exact h h3.1
      · obtain ⟨r, hr, hor⟩ := h
        have hfalse : requests.any (fun r => decide (r < 0) || decide (disk_size ≤ r)) = true := by
          rw [List.any_eq_true]
          exact ⟨r, hr, by simpa using hor⟩
        exact h3.2 hfalse

/-- C6: running the engine fails (with the single validation-error kind)
exactly when the request list is empty, the disk size is non-positive,
the head is out of `[0, disk_size)`, or some request is out of
`[0, disk_size)`; and whenever it succeeds, the result is the complete
policy run — no partial sequence or metrics. -/
theorem invalid_input_error_iff (p : Policy) (disk_size head : Int)
    (requests : List Int) :
    ((∃ e, runEngine p disk_size head requests = Except.error e) ↔
      (requests = [] ∨ disk_size ≤ 0 ∨ ¬(0 ≤ head ∧ head < disk_size) ∨
        ∃ r ∈ requests, r < 0 ∨ disk_size ≤ r)) ∧
    (∀ out, runEngine p disk_size head requests = Except.ok out →
      out = runPolicy p head disk_size requests) := by
  constructor
  · rw [← validateInputs_error_iff disk_size head requests]
    unfold runEngine
    constructor
    · rintro ⟨e, he⟩
      cases hv : validateInputs disk_size head requests with
      | error e2 => exact ⟨e2, rfl⟩
      | ok v =>
        rw [hv] at he
        exact Except.noConfusion he
    · rintro ⟨e, he⟩
      rw [he]
      exact ⟨e, rfl⟩
  · intro out hout
    unfold runEngine at hout
    cases hv : validateInputs disk_size head requests with
    | error e =>
      rw [hv] at hout
      exact Except.noConfusion hout
    | ok v =>
      rw [hv] at hout
      injection hout with h
      exact h.symm

/-! ### Range invariant for SCAN and C-SCAN -/

theorem mem_boundary_if {c : Prop} [Decidable c] {x v : Int}
    (h : x ∈ (if c then [v] else ([] : List Int))) : x = v := by
  split at h
  · simpa using h
  · simp at h

/-- C8: for valid inputs, every cylinder visited by SCAN (either
direction) or C-SCAN — synthetic boundary visits included — lies in
`[0, disk_size)`. -/
theorem scan_cscan_in_range (head disk_size : Int) (requests : List Int) (d : String)
    (hds : 0 < disk_size) (hh : 0 ≤ head ∧ head < disk_size)
    (hr : ∀ r ∈ requests, 0 ≤ r ∧ r < disk_size) :
    (∀ x ∈ scanSeq head disk_size requests d, 0 ≤ x ∧ x < disk_size) ∧
    (∀ x ∈ cscanSeq head disk_size requests, 0 ≤ x ∧ x < disk_size) := by
  have hmem : ∀ x ∈ pySorted requests, 0 ≤ x ∧ x < disk_size := fun x hx =>
    hr x ((pySorted_perm requests).mem_iff.mp hx)
  constructor
  · intro x hx
    simp only [scanSeq] at hx
    by_cases hd : d = "right"
    · rw [if_pos hd] at hx
      rcases List.mem_append.mp hx with h1 | hL
      · rcases List.mem_append.mp h1 with h2 | hIF
        · rcases List.mem_append.mp h2 with hH | hR
          · have hxh : x = head := by simpa using hH
            exact hxh ▸ hh
          · exact hmem x (List.mem_filter.mp hR).1
        · have hxv := mem_boundary_if hIF
          subst hxv
          omega
      · exact hmem x (List.mem_filter.mp (List.mem_reverse.mp hL)).1
    · rw [if_neg hd] at hx
      rcases List.mem_append.mp hx with h1 | hR
      · rcases List.mem_append.mp h1 with h2 | hIF
        · rcases List.mem_append.mp h2 with hH | hL
          · have hxh : x = head := by simpa using hH
            exact hxh ▸ hh
          · exact hmem x (List.mem_filter.mp (List.mem_reverse.mp hL)).1
        · have hxv := mem_boundary_if hIF
          subst hxv
          omega
      · exact hmem x (List.mem_filter.mp hR).1
  · intro x hx
    simp only [cscanSeq] at hx
    rcases List.mem_append.mp hx with h1 | hL
    · rcases List.mem_append.mp h1 with h2 | h0
      · rcases List.mem_append.mp h2 with h3 | hIF
        · rcases List.mem_append.mp h3 with hH | hR
          · have hxh : x = head := by simpa using hH
            exact hxh ▸ hh
          · exact hmem x (List.mem_filter.mp hR).1
        · have hxv := mem_boundary_if hIF
          subst hxv
          omega
      · have hxv : x = 0 := by simpa using h0
        subst hxv
        omega
    · exact hmem x (List.mem_filter.mp hL).1

theorem scan_cscan_in_range_witness :
    (∀ x ∈ scanSeq 50 200 [98, 183, 37, 122, 14, 124, 65, 67] "right",
      0 ≤ x ∧ x < 200) ∧
    (∀ x ∈ cscanSeq 50 200 [98, 183, 37, 122, 14, 124, 65, 67],
      0 ≤ x ∧ x < 200) :=
  scan_cscan_in_range 50 200 [98, 183, 37, 122, 14, 124, 65, 67] "right"
    (by decide) (by decide) (by decide)

/-! ### SCAN direction dispatch and the empty-request guards -/

/-- C9: any direction string other than `"right"` is routed to the
left-direction branch, producing exactly the left-SCAN sequence and
metrics. -/
theorem scan_other_direction_eq_left (d : String) (head disk_size : Int)
    (requests : List Int) (hd : d ≠ "right") :
    scanSeq head disk_size requests d = scanSeq head disk_size requests "left" ∧
    runPolicy (Policy.scan d) head disk_size requests =
      runPolicy (Policy.scan "left") head disk_size requests := by
  have hs : scanSeq head disk_size requests d = scanSeq head disk_size requests "left" := by
    simp only [scanSeq]
    rw [if_neg hd, if_neg (by decide : ¬("left" : String) = "right")]
  refine ⟨hs, ?_⟩
  simp only [runPolicy, policySeq]
  rw [hs]

theorem scan_other_direction_eq_left_witness :
    scanSeq 50 200 [98, 183, 37, 122, 14, 124, 65, 67] "up" =
      scanSeq 50 200 [98, 183, 37, 122, 14, 124, 65, 67] "left" ∧
    runPolicy (Policy.scan "up") 50 200 [98, 183, 37, 122, 14, 124, 65, 67] =
      runPolicy (Policy.scan "left") 50 200 [98, 183, 37, 122, 14, 124, 65, 67] :=
  scan_other_direction_eq_left "up" 50 200 [98, 183, 37, 122, 14, 124, 65, 67]
    (by decide)

/-- C10: with an empty request list (validation bypassed), every policy
still returns: the empty-list guard makes the average 0, the zero-length
numerator (or the zero-total guard) makes the throughput 0, and the
sequences are `[head]` for FCFS, SSTF and SCAN and `[head, 0]` for
C-SCAN — the head plus synthetic boundary visits only. -/
theorem empty_requests_guards (head disk_size : Int) (d : String) :
    (runPolicy Policy.fcfs head disk_size []).1 = [head] ∧
    (runPolicy Policy.sstf head disk_size []).1 = [head] ∧
    (runPolicy (Policy.scan d) head disk_size []).1 = [head] ∧
    (runPolicy Policy.cscan head disk_size []).1 = [head, 0] ∧
    ∀ p : Policy, (runPolicy p head disk_size []).2.avg_seek = 0 ∧
      (runPolicy p head disk_size []).2.throughput = 0 := by
  refine ⟨rfl, ?_, ?_, ?_, ?_⟩
  · show sstfSeq head [] = [head]
    unfold sstfSeq
    rw [sstfAux]
  · show scanSeq head disk_size [] d = [head]
    simp [scanSeq, pySorted]
  · show cscanSeq head disk_size [] = [head, 0]
    simp [cscanSeq, pySorted]
  · intro p
    constructor
    · show (calculate_metrics [] (policySeq p head disk_size [])).avg_seek = 0
      unfold calculate_metrics
      simp
    · show (calculate_metrics [] (policySeq p head disk_size [])).throughput = 0
      unfold calculate_metrics
      simp

/-! ### SSTF: first-minimum selection and permutation -/

theorem sstfAux_nil (cur : Int) : sstfAux cur [] = [] := by
  rw [sstfAux]

theorem sstfAux_cons (cur x : Int) (xs : List Int) :
    sstfAux cur (x :: xs) =
      pyMinBy (fun y => |y - cur|) x xs ::
        sstfAux (pyMinBy (fun y => |y - cur|) x xs)
          ((x :: xs).erase (pyMinBy (fun y => |y - cur|) x xs)) := by
  rw [sstfAux]

/-- The function `pyMinBy` returns the first element achieving the minimal key: the
scanned list splits into a prefix of strictly larger keys, the chosen
element, and a suffix of no-smaller keys. -/
theorem pyMinBy_decomp (f : Int → Int) : ∀ (xs : List Int) (best : Int),
    ∃ pre post, best :: xs = pre ++ pyMinBy f best xs :: post ∧
      (∀ y ∈ pre, f (pyMinBy f best xs) < f y) ∧
      (∀ y ∈ best :: xs, f (pyMinBy f best xs) ≤ f y) := by
  intro xs
  induction xs with
  | nil =>
    intro best
    refine ⟨[], [], ?_, ?_, ?_⟩
    · simp [pyMinBy]
    · intro y hy
      exact absurd hy (List.not_mem_nil y)
    · intro y hy
      have hyb : y = best := by simpa using hy
      simp [pyMinBy, hyb]
  | cons x xs ih =>
    intro best
    by_cases hlt : f x < f best
    · obtain ⟨pre, post, heq, hpre, hmin⟩ := ih x
      refine ⟨best :: pre, post, ?_, ?_, ?_⟩
      · simp only [pyMinBy, if_pos hlt]
        rw [List.cons_append, ← heq]
      · intro y hy
        simp only [pyMinBy, if_pos hlt]
        rcases List.mem_cons.mp hy with rfl | hy
        · exact lt_of_le_of_lt (hmin x (List.mem_cons_self _ _)) hlt
        · exact hpre y hy
      · intro y hy
        simp only [pyMinBy, if_pos hlt]
        rcases List.mem_cons.mp hy with rfl | hy
        · exact le_of_lt (lt_of_le_of_lt (hmin x (List.mem_cons_self _ _)) hlt)
        · exact hmin y hy
    · obtain ⟨pre, post, heq, hpre, hmin⟩ := ih best
      cases pre with
      | nil =>
        simp only [List.nil_append] at heq
        injection heq with h1 h2
        refine ⟨[], x :: xs, ?_, ?_, ?_⟩
        · simp only [pyMinBy, if_neg hlt, List.nil_append]
          rw [← h1]
        · intro y hy
          exact absurd hy (List.not_mem_nil y)
        · intro y hy
          simp only [pyMinBy, if_neg hlt]
          rw [← h1]
          rcases List.mem_cons.mp hy with rfl | hy
          · exact le_refl _
          rcases List.mem_cons.mp hy with rfl | hy
          · exact le_of_not_lt hlt
          · have h := hmin y (List.mem_cons_of_mem _ hy)
            rw [← h1] at h
            exact h
      | cons p pre2 =>
        rw [List.cons_append] at heq
        injection heq with h1 h2
        have hmem_b : best ∈ p :: pre2 := by
          rw [← h1]
          exact List.mem_cons_self _ _
        refine ⟨best :: x :: pre2, post, ?_, ?_, ?_⟩
        · simp only [pyMinBy, if_neg hlt]
          rw [List.cons_append, List.cons_append, ← h2]
        · intro y hy
          simp only [pyMinBy, if_neg hlt]
          have hbest : f (pyMinBy f best xs) < f best := hpre best hmem_b
          rcases List.mem_cons.mp hy with rfl | hy
          · exact hbest
          rcases List.mem_cons.mp hy with rfl | hy
          · exact lt_of_lt_of_le hbest (le_of_not_lt hlt)
          · exact hpre y (List.mem_cons_of_mem _ hy)
        · intro y hy
          simp only [pyMinBy, if_neg hlt]
          have hbest : f (pyMinBy f best xs) < f best := hpre best hmem_b
          rcases List.mem_cons.mp hy with rfl | hy
          · exact le_of_lt hbest
          rcases List.mem_cons.mp hy with rfl | hy
          · exact le_trans (le_of_lt hbest) (le_of_not_lt hlt)
          · exact hmin y (List.mem_cons_of_mem _ hy)

/-- The spec-side greedy SSTF relation: from position `cur`, repeatedly
pick the element of the remaining list with minimum absolute distance to
`cur` — on ties the first such element in remaining-list order, so every
element before it is strictly farther — remove exactly that occurrence,
and continue from the chosen element. -/
inductive SSTFSpec : Int → List Int → List Int → Prop where
  | nil (cur : Int) : SSTFSpec cur [] []
  | step (cur : Int) (pre : List Int) (c : Int) (post : List Int) (out : List Int)
      (hpre : ∀ y ∈ pre, |c - cur| < |y - cur|)
      (hmin : ∀ y ∈ pre ++ post, |c - cur| ≤ |y - cur|)
      (hrec : SSTFSpec c (pre ++ post) out) :
      SSTFSpec cur (pre ++ c :: post) (c :: out)

theorem sstfAux_spec_aux : ∀ (n : Nat) (rem : List Int), rem.length ≤ n → ∀ cur,
    SSTFSpec cur rem (sstfAux cur rem) := by
  intro n
  induction n with
  | zero =>
    intro rem hlen cur
    have h : rem = [] := List.length_eq_zero.mp (Nat.le_zero.mp hlen)
    subst h
    rw [sstfAux_nil]
    exact SSTFSpec.nil cur
  | succ n ih =>
    intro rem hlen cur
    cases rem with
    | nil =>
      rw [sstfAux_nil]
      exact SSTFSpec.nil cur
    | cons x xs =>
      rw [sstfAux_cons]
      obtain ⟨pre, post, heq, hpre, hmin⟩ := pyMinBy_decomp (fun y => |y - cur|) xs x
      have hnot : pyMinBy (fun y => |y - cur|) x xs ∉ pre := fun hmem =>
        lt_irrefl _ (hpre _ hmem)
      have herase : (x :: xs).erase (pyMinBy (fun y => |y - cur|) x xs) = pre ++ post := by
        rw [heq, List.erase_append_right _ hnot, List.erase_cons_head]
      have hlen2 : (pre ++ post).length ≤ n := by
        have h1 := congrArg List.length heq
        simp only [List.length_cons, List.length_append] at h1 hlen ⊢
        omega
      have hmin2 : ∀ y ∈ pre ++ post,
          |pyMinBy (fun y => |y - cur|) x xs - cur| ≤ |y - cur| := by
        intro y hy
        apply hmin
        rw [heq]
        rcases List.mem_append.mp hy with hy | hy
        · exact List.mem_append.mpr (Or.inl hy)
        · exact List.mem_append.mpr (Or.inr (List.mem_cons_of_mem _ hy))
      rw [herase, heq]
      exact SSTFSpec.step cur pre _ post _ hpre hmin2 (ih (pre ++ post) hlen2 _)

theorem sstfAux_perm_aux : ∀ (n : Nat) (rem : List Int), rem.length ≤ n → ∀ cur,
    (sstfAux cur rem).Perm rem := by
  intro n
  induction n with
  | zero =>
    intro rem hlen cur
    have h : rem = [] := List.length_eq_zero.mp (Nat.le_zero.mp hlen)
    subst h
    rw [sstfAux_nil]
  | succ n ih =>
    intro rem hlen cur
    cases rem with
    | nil => rw [sstfAux_nil]
    | cons x xs =>
      rw [sstfAux_cons]
      have hmem : pyMinBy (fun y => |y - cur|) x xs ∈ x :: xs := pyMinBy_mem _ xs x
      have hlen2 : ((x :: xs).erase (pyMinBy (fun y => |y - cur|) x xs)).length ≤ n := by
        rw [List.length_erase_of_mem hmem]
        simp only [List.length_cons] at hlen ⊢
        omega
      have ihp := ih _ hlen2 (pyMinBy (fun y => |y - cur|) x xs)
      exact (ihp.cons _).trans (List.perm_cons_erase hmem).symm

/-- C4: the SSTF sequence is the head followed by the spec's greedy
selection — each step takes the remaining element of minimum absolute
distance to the last visited position, on ties the first one in
remaining-list order, and removes it — so the part after the head is a
permutation of the requests with no synthetic insertions. -/
theorem sstf_greedy_first_min_perm (head : Int) (requests : List Int) :
    sstfSeq head requests = head :: (sstfSeq head requests).tail ∧
    SSTFSpec head requests ((sstfSeq head requests).tail) ∧
    ((sstfSeq head requests).tail).Perm requests := by
  refine ⟨rfl, ?_, ?_⟩
  · exact sstfAux_spec_aux requests.length requests (le_refl _) head
  · exact sstfAux_perm_aux requests.length requests (le_refl _) head

end DiskSim
